import Mathlib

/-!
Verification of the METSlib core (model.hh, simulated-annealing.hh,
termination-criteria.hh) against its natural-language specification.

The C++ headers are shallowly embedded: the `gol_type` scalar (`double` in the
source) is modelled by `ℚ`, the `std::vector<int> pi_m` by `List ℤ`, and the
user-supplied virtual methods `compute_cost` / `evaluate_swap` by a record of
functions over the permutation.  Fallible operations (C++ `throw`) return an
explicit outcome type.  All definitions are computable.
-/

namespace Mets

/-- `gol_type`: the objective/cost scalar.  The source uses `double`; the
embedding uses `ℚ`, modelling exact real arithmetic. -/
abbrev gol_type : Type := ℚ

/-- The user-supplied virtual methods of `mets::permutation_problem`:
`compute_cost` (full recomputation) and `evaluate_swap` (cost delta of a
swap), both reading the permutation vector. -/
structure UserModel where
  compute_cost : List ℤ → gol_type
  evaluate_swap : List ℤ → ℕ → ℕ → gol_type

/-- State of `mets::permutation_problem`: the permutation vector `pi_m` and
the incrementally maintained cost `cost_m`. -/
structure permutation_problem where
  pi_m : List ℤ
  cost_m : gol_type
deriving DecidableEq

/-- `permutation_problem(int n)`: initialize `pi_m = {0, 1, ..., n-1}`,
`cost_m = 0.0` (via `std::generate` with `sequence(0)`). -/
def permutation_problem.init (n : ℕ) : permutation_problem :=
  ⟨(List.range n).map (fun (k : ℕ) => (k : ℤ)), 0⟩

/-- `std::swap(pi_m[i], pi_m[j])` on a list: position `i` receives the old
entry at `j` and position `j` the old entry at `i`. -/
def listSwap (l : List ℤ) (i j : ℕ) : List ℤ :=
  (l.set i (l.getD j 0)).set j (l.getD i 0)

/-- `permutation_problem::apply_swap(int i, int j)`, statement by statement:
first `cost_m += evaluate_swap(i, j)` (reading the pre-swap `pi_m`), then
`std::swap(pi_m[i], pi_m[j])`. -/
def apply_swap (U : UserModel) (p : permutation_problem) (i j : ℕ) :
    permutation_problem :=
  let pc : permutation_problem :=
    { p with cost_m := p.cost_m + U.evaluate_swap p.pi_m i j }
  { pc with pi_m := listSwap pc.pi_m i j }

/-- `permutation_problem::cost_function()`: returns `cost_m`. -/
def permutation_problem.cost_function (p : permutation_problem) : gol_type :=
  p.cost_m

/-- `permutation_problem::size()`: returns `pi_m.size()`. -/
def permutation_problem.size (p : permutation_problem) : ℕ :=
  p.pi_m.length

/-- `permutation_problem::update_cost()`: `cost_m = compute_cost()`. -/
def update_cost (U : UserModel) (p : permutation_problem) : permutation_problem :=
  { p with cost_m := U.compute_cost p.pi_m }

/-- The user obligation of §3 of the spec: `evaluate_swap(i, j)` returns
`cost(π with i↔j) − cost(π)` for in-range indices. -/
def Consistent (U : UserModel) : Prop :=
  ∀ (l : List ℤ) (i j : ℕ), i < l.length → j < l.length →
    U.evaluate_swap l i j = U.compute_cost (listSwap l i j) - U.compute_cost l

/-- `mets::swap_elements`: fields `p1`, `p2`. -/
structure swap_elements where
  p1 : ℕ
  p2 : ℕ
deriving DecidableEq

/-- The `swap_elements(int from, int to)` constructor: `p1 = min`, `p2 = max`. -/
def swap_elements.make (i j : ℕ) : swap_elements :=
  ⟨min i j, max i j⟩

/-- `swap_elements::evaluate`: `sol.cost_function() + sol.evaluate_swap(p1, p2)`. -/
def swap_elements.evaluate (U : UserModel) (m : swap_elements)
    (p : permutation_problem) : gol_type :=
  p.cost_function + U.evaluate_swap p.pi_m m.p1 m.p2

/-- `swap_elements::apply`: `sol.apply_swap(p1, p2)`. -/
def swap_elements.applyMove (U : UserModel) (m : swap_elements)
    (p : permutation_problem) : permutation_problem :=
  apply_swap U p m.p1 m.p2

/-- `mets::invert_subsequence`: fields `p1`, `p2` (not normalized). -/
structure invert_subsequence where
  p1 : ℕ
  p2 : ℕ
deriving DecidableEq

/-- The loop bound of `invert_subsequence::apply`/`evaluate`:
`top = p1 < p2 ? (p2 - p1 + 1) : (size + p2 - p1 + 1)`. -/
def invert_top (n p1 p2 : ℕ) : ℕ :=
  if p1 < p2 then p2 - p1 + 1 else n + p2 - p1 + 1

/-- The index pairs the loop of `invert_subsequence::apply`/`evaluate` visits:
`(from, to) = ((p1 + ii) % size, (size + p2 - ii) % size)` for
`ii = 0, ..., top/2 - 1`. -/
def invert_pairs (n p1 p2 : ℕ) : List (ℕ × ℕ) :=
  (List.range (invert_top n p1 p2 / 2)).map
    (fun ii => ((p1 + ii) % n, (n + p2 - ii) % n))

/-- `invert_subsequence::apply`: `sol.apply_swap(from, to)` for each visited
pair in order.  `size` is read once at entry. -/
def invert_subsequence.applyMove (U : UserModel) (m : invert_subsequence)
    (p : permutation_problem) : permutation_problem :=
  (invert_pairs p.size m.p1 m.p2).foldl (fun q pr => apply_swap U q pr.1 pr.2) p

/-- `invert_subsequence::evaluate`: `eval = 0.0`, then
`eval += sol.evaluate_swap(from, to)` for each visited pair, against the
unmodified solution. -/
def invert_subsequence.evaluate (U : UserModel) (m : invert_subsequence)
    (p : permutation_problem) : gol_type :=
  (invert_pairs p.size m.p1 m.p2).foldl
    (fun acc pr => acc + U.evaluate_swap p.pi_m pr.1 pr.2) 0

/-! ### Errors, casts and constructors (model.hh, simulated-annealing.hh) -/

/-- The error taxonomy of spec §7 (`TypeMismatch` is the `std::bad_cast` of a
failed `dynamic_cast`, `InvalidParameter` the `std::runtime_error` thrown by
the cooling constructors) plus an explicit marker for C++ undefined behavior
(an unchecked `static_cast` through a reference of the wrong dynamic type,
which throws nothing). -/
inductive MetsError where
  | typeMismatch
  | invalidParameter
  | undefinedBehavior
deriving DecidableEq

/-- Outcome of a C++ operation: a value, a thrown exception, or undefined
behavior. -/
inductive CxxOutcome (α : Type) where
  | ok (a : α)
  | thrown (e : MetsError)
  | undefined
deriving DecidableEq

/-- A `mets::feasible_solution` reference: either a `permutation_problem` or
a solution of some other concrete type (tagged). -/
inductive FeasibleSol where
  | perm (p : permutation_problem)
  | other (tag : ℕ)
deriving DecidableEq

/-- `dynamic_cast<const permutation_problem&>(...)`: checked; throws
`std::bad_cast` when the referenced object is not a `permutation_problem`. -/
def dynCastPerm (s : FeasibleSol) : CxxOutcome permutation_problem :=
  match s with
  | .perm p => .ok p
  | .other _ => .thrown .typeMismatch

/-- `static_cast<permutation_problem&>(...)`: unchecked; using the result on
a reference of the wrong dynamic type is undefined behavior and throws
nothing. -/
def statCastPerm (s : FeasibleSol) : CxxOutcome permutation_problem :=
  match s with
  | .perm p => .ok p
  | .other _ => .undefined

/-- `permutation_problem::copy_from(const copyable& other)`: a
`dynamic_cast` of the source, then `pi_m = o.pi_m; cost_m = o.cost_m`.  When
the cast throws, the exception propagates before any assignment, so the
receiver is untouched. -/
def copy_from (_target : permutation_problem) (src : FeasibleSol) :
    CxxOutcome permutation_problem :=
  match dynCastPerm src with
  | .ok o => .ok ⟨o.pi_m, o.cost_m⟩
  | .thrown e => .thrown e
  | .undefined => .undefined

/-- `swap_elements::evaluate` on a `feasible_solution` reference: a
`static_cast` followed by the permutation-level evaluation. -/
def swap_elements.evaluateF (U : UserModel) (m : swap_elements)
    (s : FeasibleSol) : CxxOutcome gol_type :=
  match statCastPerm s with
  | .ok sol => .ok (swap_elements.evaluate U m sol)
  | .thrown e => .thrown e
  | .undefined => .undefined

/-- `swap_elements::apply` on a `feasible_solution` reference. -/
def swap_elements.applyF (U : UserModel) (m : swap_elements)
    (s : FeasibleSol) : CxxOutcome FeasibleSol :=
  match statCastPerm s with
  | .ok sol => .ok (.perm (swap_elements.applyMove U m sol))
  | .thrown e => .thrown e
  | .undefined => .undefined

/-- `invert_subsequence::evaluate` on a `feasible_solution` reference. -/
def invert_subsequence.evaluateF (U : UserModel) (m : invert_subsequence)
    (s : FeasibleSol) : CxxOutcome gol_type :=
  match statCastPerm s with
  | .ok sol => .ok (invert_subsequence.evaluate U m sol)
  | .thrown e => .thrown e
  | .undefined => .undefined

/-- `invert_subsequence::apply` on a `feasible_solution` reference. -/
def invert_subsequence.applyF (U : UserModel) (m : invert_subsequence)
    (s : FeasibleSol) : CxxOutcome FeasibleSol :=
  match statCastPerm s with
  | .ok sol => .ok (.perm (invert_subsequence.applyMove U m sol))
  | .thrown e => .thrown e
  | .undefined => .undefined

/-- `mets::exponential_cooling`: holds `factor_m = alpha`. -/
structure exponential_cooling where
  factor_m : gol_type
deriving DecidableEq

/-- The `exponential_cooling(double alpha = 0.95)` constructor:
`if (alpha >= 1) throw std::runtime_error("alpha must be < 1")`. -/
def exponential_cooling.make (alpha : gol_type) : CxxOutcome exponential_cooling :=
  if 1 ≤ alpha then .thrown .invalidParameter else .ok ⟨alpha⟩

/-- `exponential_cooling::operator()`: `temp * factor_m`. -/
def exponential_cooling.step (c : exponential_cooling) (temp : gol_type) :
    gol_type :=
  temp * c.factor_m

/-- `mets::linear_cooling`: holds `decrement_m = delta`. -/
structure linear_cooling where
  decrement_m : gol_type
deriving DecidableEq

/-- The `linear_cooling(double delta = 0.1)` constructor:
`if (delta <= 0) throw std::runtime_error("delta must be > 0")`. -/
def linear_cooling.make (delta : gol_type) : CxxOutcome linear_cooling :=
  if delta ≤ 0 then .thrown .invalidParameter else .ok ⟨delta⟩

/-- `linear_cooling::operator()`: `std::max(0.0, temp - decrement_m)`. -/
def linear_cooling.step (c : linear_cooling) (temp : gol_type) : gol_type :=
  max 0 (temp - c.decrement_m)

/-- The `swap_full_neighborhood(int size)` constructor: pushes
`swap_elements(ii, jj)` for `0 ≤ ii < size-1` and `ii < jj < size`, in loop
order; it contains no validation and no throw (modelled for `size ≥ 1`; the
`ii != size - 1` loop bound leaves `size = 0` outside the int contract). -/
def swap_full_neighborhood (size : ℕ) : List swap_elements :=
  (List.range (size - 1)).flatMap
    (fun ii => (List.range (size - 1 - ii)).map
      (fun d => swap_elements.make ii (ii + 1 + d)))

/-- The `invert_full_neighborhood(int size)` constructor: pushes
`invert_subsequence(ii, jj)` for all `0 ≤ ii, jj < size` with `ii ≠ jj`, in
loop order; no validation, no throw. -/
def invert_full_neighborhood (size : ℕ) : List invert_subsequence :=
  (List.range size).flatMap
    (fun ii => ((List.range size).filter (fun jj => ii ≠ jj)).map
      (fun jj => (⟨ii, jj⟩ : invert_subsequence)))

/-- The `swap_neighborhood(random_generator& r, unsigned int moves)`
constructor: pushes `moves` copies of `swap_elements(0, 0)`; no validation,
no throw. -/
def swap_neighborhood_ctor (moves : ℕ) : List swap_elements :=
  List.replicate moves (swap_elements.make 0 0)

/-! ### Termination criteria (termination-criteria.hh)

A chain node's delegate call (`termination_criteria_chain::operator()`, which
returns `next_m->operator()(fs)` when a successor exists and `false`
otherwise) is modelled by a boolean parameter `nextRes`, and each step reports
whether the delegate line was reached.  A criterion "used alone" has
`nextRes = false` on every invocation.  C++ `int` counters are `ℤ`. -/

/-- State of `mets::iteration_termination_criteria`: the `iterations_m`
counter (its `max_m` is a constructor constant, passed separately). -/
def iteration_step (nextRes : Bool) (iters : ℤ) : Bool × Bool × ℤ :=
  if iters ≤ 0 then (true, false, iters)
  else (nextRes, true, iters - 1)

/-- `iteration_termination_criteria::reset()`: `iterations_m = max_m`. -/
def iteration_reset (max_m : ℤ) : ℤ :=
  max_m

/-- Counter value before the `k`-th invocation (0-indexed), starting from the
constructed state `iterations_m = max`. -/
def iteration_state_at (max_m : ℤ) : ℕ → ℤ
  | 0 => max_m
  | k + 1 => (iteration_step false (iteration_state_at max_m k)).2.2

/-- Result of the `k`-th invocation, with `next : ℕ → Bool` giving the value
the successor chain would return on each invocation. -/
def iteration_out (max_m : ℤ) (next : ℕ → Bool) (k : ℕ) : Bool :=
  (iteration_step (next k) (iteration_state_at max_m k)).1

/-- State of `mets::noimprove_termination_criteria`.  The
`std::numeric_limits<gol_type>::max()` sentinel of `best_cost_m` (the spec's
"+∞", larger than every cost the criterion meets) is modelled by `none`. -/
structure noimprove_state where
  best_cost_m : Option gol_type
  iterations_left_m : ℤ
  total_iterations_m : ℤ
  resets_m : ℤ
  second_guess_m : ℤ
deriving DecidableEq

/-- The constructed state: best cost at the sentinel, `iterations_left_m =
max`, the other counters zero. -/
def noimprove_init (maxni : ℤ) : noimprove_state :=
  ⟨none, maxni, 0, 0, 0⟩

/-- The improvement test `current_cost < best_cost_m - epsilon_m` (always
true against the sentinel, which exceeds every cost by more than ε). -/
def improvesBest (epsilon : gol_type) (best : Option gol_type) (c : gol_type) :
    Bool :=
  match best with
  | none => true
  | some b => decide (c < b - epsilon)

/-- First phase of `noimprove_termination_criteria::operator()`: when the
current cost `c` improves on `best_cost_m` by more than ε, store it as the
new best, record `second_guess_m` from the pre-reset countdown, reset
`iterations_left_m` to `max` and bump `resets_m`; otherwise leave the state
alone. -/
def noimprove_update (maxni : ℤ) (epsilon : gol_type) (st : noimprove_state)
    (c : gol_type) : noimprove_state :=
  if improvesBest epsilon st.best_cost_m c then
    { best_cost_m := some c,
      iterations_left_m := maxni,
      total_iterations_m := st.total_iterations_m,
      resets_m := st.resets_m + 1,
      second_guess_m := max st.second_guess_m (maxni - st.iterations_left_m) }
  else st

/-- Second phase: `if (iterations_left_m <= 0) return true;` else bump
`total_iterations_m`, decrement the countdown, and return the delegate's
value.  Result: (returned value, whether the delegate line was reached, new
state). -/
def noimprove_finish (nextRes : Bool) (st1 : noimprove_state) :
    Bool × Bool × noimprove_state :=
  if st1.iterations_left_m ≤ 0 then (true, false, st1)
  else (nextRes, true,
    { st1 with total_iterations_m := st1.total_iterations_m + 1,
               iterations_left_m := st1.iterations_left_m - 1 })

/-- One invocation of `noimprove_termination_criteria::operator()` at current
cost `c`: the improvement update followed by the countdown check. -/
def noimprove_step (maxni : ℤ) (epsilon : gol_type) (nextRes : Bool)
    (st : noimprove_state) (c : gol_type) : Bool × Bool × noimprove_state :=
  noimprove_finish nextRes (noimprove_update maxni epsilon st c)

/-- State before the `k`-th invocation on the cost stream `costs` (the state
update does not read the delegate's value, so none is passed). -/
def noimprove_state_at (maxni : ℤ) (epsilon : gol_type) (costs : ℕ → gol_type) :
    ℕ → noimprove_state
  | 0 => noimprove_init maxni
  | k + 1 =>
    (noimprove_step maxni epsilon false
      (noimprove_state_at maxni epsilon costs k) (costs k)).2.2

/-- Result of the `k`-th invocation. -/
def noimprove_out (maxni : ℤ) (epsilon : gol_type) (next : ℕ → Bool)
    (costs : ℕ → gol_type) (k : ℕ) : Bool :=
  (noimprove_step maxni epsilon (next k)
    (noimprove_state_at maxni epsilon costs k) (costs k)).1

/-- Whether the `k`-th invocation reached the delegate line. -/
def noimprove_delegated (maxni : ℤ) (epsilon : gol_type) (next : ℕ → Bool)
    (costs : ℕ → gol_type) (k : ℕ) : Bool :=
  (noimprove_step maxni epsilon (next k)
    (noimprove_state_at maxni epsilon costs k) (costs k)).2.1

/-- Whether the `k`-th invocation improves the tracked best by more than ε. -/
def improvesAt (maxni : ℤ) (epsilon : gol_type) (costs : ℕ → gol_type) (k : ℕ) :
    Bool :=
  improvesBest epsilon (noimprove_state_at maxni epsilon costs k).best_cost_m
    (costs k)

/-- Number of invocations elapsed since the most recent improving invocation
(`k` itself when no invocation before `k` improved). -/
def noimprove_gap (maxni : ℤ) (epsilon : gol_type) (costs : ℕ → gol_type) :
    ℕ → ℕ
  | 0 => 0
  | k + 1 =>
    if improvesAt maxni epsilon costs k then 1
    else noimprove_gap maxni epsilon costs k + 1

/-! ### Simulated annealing (simulated-annealing.hh)

`simulated_annealing<move_manager_type>::search()` is embedded generically:
the working solution, move manager, termination chain and solution recorder
are type parameters whose virtual calls are supplied as functions, exactly
the slots the template/virtual dispatch of the source fills.  The uniform
RNG `gen()` is a stream of draws indexed by how many draws were consumed so
far (`||` short-circuit: a draw is consumed only when `delta < 0` fails),
`std::exp` is an oracle function `expO` (the library only compares its
value), and the outer `while` carries explicit fuel since the C++ loop need
not terminate.  The observer notifications (`step_m`, `notify`) carry no
state the spec's claims mention and are omitted. -/

/-- A `mets::move` as the driver sees it: its two virtual methods. -/
structure SAMove (σ : Type) where
  evaluateM : σ → gol_type
  applyM : σ → σ

/-- The collaborators `simulated_annealing` borrows, as functions. -/
structure SAEnv (σ μ τ ρ : Type) where
  costFn : σ → gol_type
  movesOf : μ → List (SAMove σ)
  refresh : σ → μ → μ
  termStep : σ → τ → Bool × τ
  recAccept : σ → ρ → Bool × ρ
  cool : gol_type → σ → gol_type
  draws : ℕ → gol_type
  expO : gol_type → gol_type
  starting_temp_m : gol_type
  stop_temp_m : gol_type
  K_m : gol_type

/-- The mutable state of the search. -/
structure SAState (σ μ τ ρ : Type) where
  working : σ
  moveman : μ
  term : τ
  recorder : ρ
  current_temp_m : gol_type
  drawIdx : ℕ

/-- The inner `for` loop over the refreshed neighborhood: evaluate the move,
accept iff `delta < 0 || gen() < exp(-delta / (K_m * current_temp_m))`
(the draw is consumed only when the first disjunct fails), and on acceptance
apply the move, offer the solution to the recorder, and break.  Returns the
working solution, the recorder, the draw index, and whether a move was
accepted. -/
def innerScan {σ μ τ ρ : Type} (env : SAEnv σ μ τ ρ) (base temp : gol_type)
    (ms : List (SAMove σ)) (sol : σ) (rcd : ρ) (di : ℕ) : σ × ρ × ℕ × Bool :=
  match ms with
  | [] => (sol, rcd, di, false)
  | m :: rest =>
    if m.evaluateM sol - base < 0 then
      (m.applyM sol, (env.recAccept (m.applyM sol) rcd).2, di, true)
    else if env.draws di <
        env.expO (-(m.evaluateM sol - base) / (env.K_m * temp)) then
      (m.applyM sol, (env.recAccept (m.applyM sol) rcd).2, di + 1, true)
    else innerScan env base temp rest sol rcd (di + 1)

/-- One outer iteration of `search()` past the loop guard: read
`actual_cost` from the working solution (the second read into the dead
`best_cost` is omitted), refresh the neighborhood, scan it, then let the
cooling schedule update the temperature from the post-scan solution. -/
def saStep {σ μ τ ρ : Type} (env : SAEnv σ μ τ ρ) (st : SAState σ μ τ ρ) :
    SAState σ μ τ ρ :=
  let base := env.costFn st.working
  let mm1 := env.refresh st.working st.moveman
  let r := innerScan env base st.current_temp_m (env.movesOf mm1) st.working
    st.recorder st.drawIdx
  { working := r.1, moveman := mm1, term := st.term, recorder := r.2.1,
    current_temp_m := env.cool st.current_temp_m r.1, drawIdx := r.2.2.1 }

/-- The outer `while (!termination_criteria_m(working) && current_temp_m >
stop_temp_m)` loop: the termination chain is invoked (statefully) on every
guard check; the loop exits exactly when it returns true or the temperature
has fallen to `stop_temp_m` or below. -/
def saLoop {σ μ τ ρ : Type} (env : SAEnv σ μ τ ρ) :
    ℕ → SAState σ μ τ ρ → SAState σ μ τ ρ
  | 0, st => st
  | fuel + 1, st =>
    if (env.termStep st.working st.term).1 = true ∨
        st.current_temp_m ≤ env.stop_temp_m then
      { st with term := (env.termStep st.working st.term).2 }
    else
      saLoop env fuel (saStep env { st with term := (env.termStep st.working st.term).2 })

/-- `search()`: set `current_temp_m = starting_temp_m`, then loop. -/
def saSearch {σ μ τ ρ : Type} (env : SAEnv σ μ τ ρ) (fuel : ℕ)
    (st : SAState σ μ τ ρ) : SAState σ μ τ ρ :=
  saLoop env fuel { st with current_temp_m := env.starting_temp_m }

/-- The evaluated cost delta of a move: `cost - actual_cost`. -/
def deltaOf {σ : Type} (base : gol_type) (m : SAMove σ) (sol : σ) : gol_type :=
  m.evaluateM sol - base

/-- Number of RNG draws the scan consumes strictly before reaching position
`i`: one per earlier move whose delta was nonnegative. -/
def drawsBefore {σ : Type} (base : gol_type) (ms : List (SAMove σ)) (sol : σ)
    (i : ℕ) : ℕ :=
  ((ms.take i).filter (fun m => decide (0 ≤ deltaOf base m sol))).length

/-- The §4.4 acceptance predicate for the move tested with draw index `di`:
`Δ < 0` or `uniform < exp(-Δ / (K · T))`. -/
def acceptMove {σ μ τ ρ : Type} (env : SAEnv σ μ τ ρ) (base temp : gol_type)
    (sol : σ) (di : ℕ) (m : SAMove σ) : Prop :=
  deltaOf base m sol < 0 ∨
    env.draws di < env.expO (-(deltaOf base m sol) / (env.K_m * temp))

end Mets

/-! ## Theorems -/

namespace Mets

/-- `(l.set i a).getD j 0` rewritten through the update. -/
theorem getD_set (l : List ℤ) (i j : ℕ) (a : ℤ) :
    (l.set i a).getD j 0 = if i = j ∧ j < l.length then a else l.getD j 0 := by
  rcases Nat.lt_or_ge j l.length with hj | hj
  · rw [List.getD_eq_getElem _ _ (by simpa using hj), List.getD_eq_getElem _ _ hj,
      List.getElem_set]
    by_cases hij : i = j
    · simp [hij, hj]
    · simp [hij]
  · rw [List.getD_eq_default _ _ (by simpa using hj), List.getD_eq_default _ _ hj]
    have hc : ¬ (i = j ∧ j < l.length) := fun h => absurd h.2 (by omega)
    rw [if_neg hc]

theorem listSwap_length (l : List ℤ) (i j : ℕ) :
    (listSwap l i j).length = l.length := by
  simp [listSwap]

theorem listSwap_getD_left (l : List ℤ) (i j : ℕ) (hi : i < l.length)
    (hj : j < l.length) : (listSwap l i j).getD i 0 = l.getD j 0 := by
  unfold listSwap
  rw [getD_set, getD_set]
  by_cases hij : j = i
  · subst hij
    simp [hj]
  · rw [if_neg (fun h => hij h.1), if_pos ⟨rfl, hi⟩]

theorem listSwap_getD_right (l : List ℤ) (i j : ℕ) (_hi : i < l.length)
    (hj : j < l.length) : (listSwap l i j).getD j 0 = l.getD i 0 := by
  unfold listSwap
  rw [getD_set]
  simp [hj]

theorem listSwap_getD_other (l : List ℤ) (i j k : ℕ) (hki : k ≠ i) (hkj : k ≠ j) :
    (listSwap l i j).getD k 0 = l.getD k 0 := by
  unfold listSwap
  rw [getD_set, getD_set]
  rw [if_neg (fun h => hkj h.1.symm), if_neg (fun h => hki h.1.symm)]

/-- C4: `apply_swap(i, j)` first adds `evaluate_swap(i, j)` — evaluated against
the pre-swap permutation — to the cached cost, then exchanges `π[i]` and
`π[j]`; afterwards `cost_function()` returns the updated cached cost, and no
other component of the skeleton state changes (the permutation keeps its
length and every position other than `i`, `j` keeps its entry). -/
theorem C4_apply_swap_spec (U : UserModel) (p : permutation_problem) (i j : ℕ)
    (hi : i < p.pi_m.length) (hj : j < p.pi_m.length) :
    (apply_swap U p i j).cost_m = p.cost_m + U.evaluate_swap p.pi_m i j ∧
    (apply_swap U p i j).cost_function = p.cost_m + U.evaluate_swap p.pi_m i j ∧
    (apply_swap U p i j).pi_m.getD i 0 = p.pi_m.getD j 0 ∧
    (apply_swap U p i j).pi_m.getD j 0 = p.pi_m.getD i 0 ∧
    (∀ k, k ≠ i → k ≠ j → (apply_swap U p i j).pi_m.getD k 0 = p.pi_m.getD k 0) ∧
    (apply_swap U p i j).pi_m.length = p.pi_m.length := by
  refine ⟨rfl, rfl, ?_, ?_, ?_, ?_⟩
  · exact listSwap_getD_left p.pi_m i j hi hj
  · exact listSwap_getD_right p.pi_m i j hi hj
  · exact fun k hki hkj => listSwap_getD_other p.pi_m i j k hki hkj
  · exact listSwap_length p.pi_m i j

/-- C4 witness: the theorem applied to a concrete two-element problem. -/
theorem C4_apply_swap_spec_witness :
    (apply_swap ⟨fun _ => 0, fun _ _ _ => 5⟩ ⟨[7, 9], 1⟩ 0 1).cost_m = 1 + 5 ∧
    (apply_swap ⟨fun _ => 0, fun _ _ _ => 5⟩ ⟨[7, 9], 1⟩ 0 1).cost_function = 1 + 5 ∧
    (apply_swap ⟨fun _ => 0, fun _ _ _ => 5⟩ ⟨[7, 9], 1⟩ 0 1).pi_m.getD 0 0 = 9 ∧
    (apply_swap ⟨fun _ => 0, fun _ _ _ => 5⟩ ⟨[7, 9], 1⟩ 0 1).pi_m.getD 1 0 = 7 ∧
    (∀ k, k ≠ 0 → k ≠ 1 →
      (apply_swap ⟨fun _ => 0, fun _ _ _ => 5⟩ ⟨[7, 9], 1⟩ 0 1).pi_m.getD k 0 =
      ([7, 9] : List ℤ).getD k 0) ∧
    (apply_swap ⟨fun _ => 0, fun _ _ _ => 5⟩ ⟨[7, 9], 1⟩ 0 1).pi_m.length = 2 := by
  have h := C4_apply_swap_spec ⟨fun _ => 0, fun _ _ _ => 5⟩ ⟨[7, 9], 1⟩ 0 1
    (by decide) (by decide)
  simpa using h

theorem foldl_add_eq_sum {α : Type} (f : α → gol_type) (xs : List α) (a : gol_type) :
    xs.foldl (fun acc x => acc + f x) a = a + (xs.map f).sum := by
  induction xs generalizing a with
  | nil => simp
  | cons x rest ih => simp [List.foldl_cons, ih (a + f x)]; ring

/-- C1 (amended): under the user consistency obligation and a consistent
cached cost, `swap_elements::evaluate` returns the exact cost the solution
would have after `apply` (both the cached cost and the recomputed full cost of
the post-move permutation), while `invert_subsequence::evaluate` returns the
sum of the per-pair `evaluate_swap` deltas, each taken against the unmodified
pre-move permutation. -/
theorem C1_move_evaluate (U : UserModel) (p : permutation_problem)
    (hU : Consistent U) (hcc : p.cost_m = U.compute_cost p.pi_m)
    (sm : swap_elements) (im : invert_subsequence)
    (h1 : sm.p1 < p.pi_m.length) (h2 : sm.p2 < p.pi_m.length) :
    (swap_elements.evaluate U sm p = (swap_elements.applyMove U sm p).cost_m ∧
     swap_elements.evaluate U sm p =
       U.compute_cost ((swap_elements.applyMove U sm p).pi_m)) ∧
    invert_subsequence.evaluate U im p =
      ((invert_pairs p.size im.p1 im.p2).map
        (fun pr => U.evaluate_swap p.pi_m pr.1 pr.2)).sum := by
  refine ⟨⟨rfl, ?_⟩, ?_⟩
  · show p.cost_function + U.evaluate_swap p.pi_m sm.p1 sm.p2 =
      U.compute_cost (listSwap p.pi_m sm.p1 sm.p2)
    rw [hU p.pi_m sm.p1 sm.p2 h1 h2]
    show p.cost_m + _ = _
    rw [hcc]
    ring
  · have h := foldl_add_eq_sum (fun pr : ℕ × ℕ => U.evaluate_swap p.pi_m pr.1 pr.2)
      (invert_pairs p.size im.p1 im.p2) 0
    show (invert_pairs p.size im.p1 im.p2).foldl
      (fun acc pr => acc + U.evaluate_swap p.pi_m pr.1 pr.2) 0 = _
    simpa using h

/-- C1 witness: the amended theorem applied to a concrete consistent model. -/
theorem C1_move_evaluate_witness :
    (swap_elements.evaluate ⟨fun _ => 10, fun _ _ _ => 0⟩ ⟨0, 1⟩ ⟨[0, 1, 2], 10⟩ =
       (swap_elements.applyMove ⟨fun _ => 10, fun _ _ _ => 0⟩ ⟨0, 1⟩
         ⟨[0, 1, 2], 10⟩).cost_m ∧
     swap_elements.evaluate ⟨fun _ => 10, fun _ _ _ => 0⟩ ⟨0, 1⟩ ⟨[0, 1, 2], 10⟩ =
       10) ∧
    invert_subsequence.evaluate ⟨fun _ => 10, fun _ _ _ => 0⟩ ⟨0, 1⟩
      ⟨[0, 1, 2], 10⟩ = 0 := by
  have h := C1_move_evaluate ⟨fun _ => 10, fun _ _ _ => 0⟩ ⟨[0, 1, 2], 10⟩
    (fun l i j _ _ => by norm_num) rfl ⟨0, 1⟩ ⟨0, 1⟩ (by decide) (by decide)
  simpa using h

/-- C1 counterexample: a consistent user model (constant full cost 10, all
swap deltas 0) and a cost-consistent solution on which
`invert_subsequence::evaluate` returns 0, while the solution after `apply`
has (cached and recomputed) cost 10: `evaluate` does not return the cost the
solution would have after the move. -/
theorem C1_counterexample :
    Consistent ⟨fun _ => 10, fun _ _ _ => 0⟩ ∧
    (⟨[0, 1, 2], 10⟩ : permutation_problem).cost_m =
      UserModel.compute_cost ⟨fun _ => 10, fun _ _ _ => 0⟩ [0, 1, 2] ∧
    invert_subsequence.evaluate ⟨fun _ => 10, fun _ _ _ => 0⟩ ⟨0, 1⟩
        ⟨[0, 1, 2], 10⟩ ≠
      (invert_subsequence.applyMove ⟨fun _ => 10, fun _ _ _ => 0⟩ ⟨0, 1⟩
        ⟨[0, 1, 2], 10⟩).cost_m ∧
    invert_subsequence.evaluate ⟨fun _ => 10, fun _ _ _ => 0⟩ ⟨0, 1⟩
        ⟨[0, 1, 2], 10⟩ ≠
      UserModel.compute_cost ⟨fun _ => 10, fun _ _ _ => 0⟩
        ((invert_subsequence.applyMove ⟨fun _ => 10, fun _ _ _ => 0⟩ ⟨0, 1⟩
          ⟨[0, 1, 2], 10⟩).pi_m) := by
  have he : invert_subsequence.evaluate ⟨fun _ => 10, fun _ _ _ => 0⟩ ⟨0, 1⟩
      ⟨[0, 1, 2], 10⟩ = 0 := by
    simp [invert_subsequence.evaluate, invert_pairs, invert_top,
      permutation_problem.size]
  have ha : (invert_subsequence.applyMove ⟨fun _ => 10, fun _ _ _ => 0⟩ ⟨0, 1⟩
      ⟨[0, 1, 2], 10⟩).cost_m = 10 := by
    simp [invert_subsequence.applyMove, invert_pairs, invert_top, apply_swap,
      permutation_problem.size, List.range_succ]
  refine ⟨fun l i j _ _ => by norm_num, rfl, ?_, ?_⟩
  · rw [he, ha]
    norm_num
  · rw [he]
    show (0 : ℚ) ≠ 10
    norm_num

theorem cons_set_perm (t : List ℤ) (k : ℕ) (a : ℤ) (hk : k < t.length) :
    (t.getD k 0 :: t.set k a).Perm (a :: t) := by
  induction t generalizing k with
  | nil => simp at hk
  | cons b t2 ih =>
    cases k with
    | zero => simpa using List.Perm.swap a b t2
    | succ k2 =>
      have hk2 : k2 < t2.length := by simpa using hk
      have s1 : (t2.getD k2 0 :: b :: t2.set k2 a).Perm
          (b :: t2.getD k2 0 :: t2.set k2 a) :=
        List.Perm.swap b (t2.getD k2 0) (t2.set k2 a)
      have s2 : (b :: t2.getD k2 0 :: t2.set k2 a).Perm (b :: a :: t2) :=
        List.Perm.cons b (ih k2 hk2)
      have s3 : (b :: a :: t2).Perm (a :: b :: t2) := List.Perm.swap a b t2
      simpa using (s1.trans s2).trans s3

theorem listSwap_perm (l : List ℤ) (i j : ℕ) (hi : i < l.length)
    (hj : j < l.length) : (listSwap l i j).Perm l := by
  induction l generalizing i j with
  | nil => simp at hi
  | cons a t ih =>
    cases i with
    | zero =>
      cases j with
      | zero => simp [listSwap]
      | succ j2 =>
        have hj2 : j2 < t.length := by simpa using hj
        have : listSwap (a :: t) 0 (j2 + 1) = t.getD j2 0 :: t.set j2 a := by
          simp [listSwap]
        rw [this]
        exact cons_set_perm t j2 a hj2
    | succ i2 =>
      cases j with
      | zero =>
        have hi2 : i2 < t.length := by simpa using hi
        have : listSwap (a :: t) (i2 + 1) 0 = t.getD i2 0 :: t.set i2 a := by
          simp [listSwap]
        rw [this]
        exact cons_set_perm t i2 a hi2
      | succ j2 =>
        have : listSwap (a :: t) (i2 + 1) (j2 + 1) = a :: listSwap t i2 j2 := by
          simp [listSwap]
        rw [this]
        exact List.Perm.cons a (ih i2 j2 (by simpa using hi) (by simpa using hj))

theorem fold_apply_swap_perm (U : UserModel) (swaps : List (ℕ × ℕ)) :
    ∀ (p : permutation_problem),
      (∀ pr ∈ swaps, pr.1 < p.pi_m.length ∧ pr.2 < p.pi_m.length) →
      ((swaps.foldl (fun q pr => apply_swap U q pr.1 pr.2) p).pi_m).Perm p.pi_m := by
  induction swaps with
  | nil => intro p _; exact List.Perm.refl _
  | cons pr rest ih =>
    intro p hp
    have hh := hp pr (List.mem_cons_self pr rest)
    have hlen : (apply_swap U p pr.1 pr.2).pi_m.length = p.pi_m.length := by
      show (listSwap _ _ _).length = _
      exact listSwap_length _ _ _
    have hrest : ∀ q ∈ rest, q.1 < (apply_swap U p pr.1 pr.2).pi_m.length ∧
        q.2 < (apply_swap U p pr.1 pr.2).pi_m.length := by
      intro q hq
      rw [hlen]
      exact hp q (List.mem_cons_of_mem pr hq)
    have s1 := ih (apply_swap U p pr.1 pr.2) hrest
    have s2 : ((apply_swap U p pr.1 pr.2).pi_m).Perm p.pi_m :=
      listSwap_perm p.pi_m pr.1 pr.2 hh.1 hh.2
    exact (s1.trans s2)

/-- C5: starting from the constructed state `π = (0, 1, ..., n-1)`, after any
finite sequence of `apply_swap(i, j)` calls with in-range indices (this covers
the swaps issued by `perturbate` and by `invert_subsequence::apply`, whose
indices are reduced mod `n`), `π` is still a permutation of `{0, ..., n-1}`;
quantifying over every sequence covers every intermediate moment. -/
theorem C5_permutation_invariant (U : UserModel) (n : ℕ) (swaps : List (ℕ × ℕ))
    (hs : ∀ pr ∈ swaps, pr.1 < n ∧ pr.2 < n) :
    ((swaps.foldl (fun q pr => apply_swap U q pr.1 pr.2)
      (permutation_problem.init n)).pi_m).Perm
      ((List.range n).map (fun (k : ℕ) => (k : ℤ))) := by
  have hlen : (permutation_problem.init n).pi_m.length = n := by
    show ((List.range n).map (fun (k : ℕ) => (k : ℤ))).length = n
    rw [List.length_map, List.length_range]
  have h := fold_apply_swap_perm U swaps (permutation_problem.init n)
    (fun pr hpr => by rw [hlen]; exact hs pr hpr)
  exact h

theorem iteration_state_eq (max_m : ℤ) (hm : 0 ≤ max_m) :
    ∀ k : ℕ, iteration_state_at max_m k = max (max_m - (k : ℤ)) 0 := by
  intro k
  induction k with
  | zero =>
    show max_m = _
    omega
  | succ k ih =>
    show (iteration_step false (iteration_state_at max_m k)).2.2 = _
    rw [ih]
    unfold iteration_step
    split
    · push_cast
      omega
    · push_cast
      omega

/-- C9: an `iteration_termination_criteria(max)` node used alone (its
delegate always answers false) returns false on the first `max` invocations
(0-indexed `k < max`), returns true on the `(max+1)`-th invocation
(`k = max`), keeps returning true on every later invocation, and `reset()`
restores the counter to `max`. -/
theorem C9_iteration_cap (max_m : ℤ) (hm : 0 ≤ max_m) (k : ℕ) :
    (iteration_out max_m (fun _ => false) k = true ↔ max_m ≤ (k : ℤ)) ∧
    iteration_reset max_m = max_m := by
  refine ⟨?_, rfl⟩
  unfold iteration_out iteration_step
  rw [iteration_state_eq max_m hm k]
  split
  · rename_i h
    simp only [true_iff]
    omega
  · rename_i h
    simp only [Bool.false_eq_true, false_iff]
    omega

/-- C9 witness: `max = 2` at the third invocation (`k = 2`). -/
theorem C9_iteration_cap_witness :
    ((iteration_out 2 (fun _ => false) 2 = true ↔ (2 : ℤ) ≤ ((2 : ℕ) : ℤ)) ∧
      iteration_reset 2 = 2) :=
  C9_iteration_cap 2 (by norm_num) 2

theorem noimprove_update_improving (maxni : ℤ) (ε : gol_type)
    (st : noimprove_state) (c : gol_type)
    (h : improvesBest ε st.best_cost_m c = true) :
    noimprove_update maxni ε st c =
      ⟨some c, maxni, st.total_iterations_m, st.resets_m + 1,
        max st.second_guess_m (maxni - st.iterations_left_m)⟩ := by
  unfold noimprove_update
  rw [if_pos h]

theorem noimprove_update_stale (maxni : ℤ) (ε : gol_type)
    (st : noimprove_state) (c : gol_type)
    (h : improvesBest ε st.best_cost_m c = false) :
    noimprove_update maxni ε st c = st := by
  unfold noimprove_update
  rw [if_neg (by simp [h])]

theorem noimprove_finish_stop (nextRes : Bool) (st1 : noimprove_state)
    (h : st1.iterations_left_m ≤ 0) :
    noimprove_finish nextRes st1 = (true, false, st1) := by
  unfold noimprove_finish
  rw [if_pos h]

theorem noimprove_finish_go (nextRes : Bool) (st1 : noimprove_state)
    (h : ¬ st1.iterations_left_m ≤ 0) :
    noimprove_finish nextRes st1 = (nextRes, true,
      { st1 with total_iterations_m := st1.total_iterations_m + 1,
                 iterations_left_m := st1.iterations_left_m - 1 }) := by
  unfold noimprove_finish
  rw [if_neg h]

theorem noimprove_left_eq (maxni : ℤ) (ε : gol_type) (costs : ℕ → gol_type)
    (hm : 0 ≤ maxni) :
    ∀ k : ℕ, (noimprove_state_at maxni ε costs k).iterations_left_m =
      maxni - min maxni ((noimprove_gap maxni ε costs k : ℤ)) := by
  intro k
  induction k with
  | zero =>
    show maxni = maxni - min maxni ((0 : ℕ) : ℤ)
    omega
  | succ k ih =>
    show (noimprove_step maxni ε false (noimprove_state_at maxni ε costs k)
      (costs k)).2.2.iterations_left_m = _
    rw [noimprove_gap]
    unfold noimprove_step
    by_cases himp : improvesAt maxni ε costs k
    · rw [if_pos himp, noimprove_update_improving maxni ε _ _ himp]
      by_cases hz : maxni ≤ 0
      · rw [noimprove_finish_stop _ _ hz]
        show maxni = _
        push_cast
        omega
      · rw [noimprove_finish_go _ _ hz]
        show maxni - 1 = _
        push_cast
        omega
    · have himp2 : improvesBest ε
          (noimprove_state_at maxni ε costs k).best_cost_m (costs k) = false := by
        unfold improvesAt at himp
        simpa using himp
      rw [if_neg himp, noimprove_update_stale maxni ε _ _ himp2]
      by_cases hz : (noimprove_state_at maxni ε costs k).iterations_left_m ≤ 0
      · rw [noimprove_finish_stop _ _ hz]
        show (noimprove_state_at maxni ε costs k).iterations_left_m = _
        rw [ih] at hz ⊢
        push_cast at hz ⊢
        omega
      · rw [noimprove_finish_go _ _ hz]
        show (noimprove_state_at maxni ε costs k).iterations_left_m - 1 = _
        rw [ih] at hz ⊢
        push_cast at hz ⊢
        omega

theorem noimprove_gap_le (maxni : ℤ) (ε : gol_type) (costs : ℕ → gol_type) :
    ∀ k : ℕ, noimprove_gap maxni ε costs k ≤ k := by
  intro k
  induction k with
  | zero => exact le_rfl
  | succ k ih =>
    rw [noimprove_gap]
    split
    · omega
    · omega

theorem noimprove_gap_window (maxni : ℤ) (ε : gol_type) (costs : ℕ → gol_type) :
    ∀ k : ℕ, ∀ j : ℕ, j < k → k < j + noimprove_gap maxni ε costs k →
      improvesAt maxni ε costs j = false := by
  intro k
  induction k with
  | zero =>
    intro j hj _
    exact absurd hj (Nat.not_lt_zero j)
  | succ k ih =>
    intro j hj hwin
    rw [noimprove_gap] at hwin
    by_cases himp : improvesAt maxni ε costs k
    · rw [if_pos himp] at hwin
      omega
    · rw [if_neg himp] at hwin
      rcases Nat.lt_or_ge j k with hjk | hjk
      · exact ih j hjk (by omega)
      · have hjeq : j = k := by omega
        subst hjeq
        simpa using himp

theorem noimprove_gap_last (maxni : ℤ) (ε : gol_type) (costs : ℕ → gol_type) :
    ∀ k : ℕ, noimprove_gap maxni ε costs k = k ∨
      improvesAt maxni ε costs (k - noimprove_gap maxni ε costs k) = true := by
  intro k
  induction k with
  | zero => exact Or.inl rfl
  | succ k ih =>
    rw [noimprove_gap]
    by_cases himp : improvesAt maxni ε costs k
    · rw [if_pos himp]
      right
      simpa using himp
    · rw [if_neg himp]
      rcases ih with h | h
      · exact Or.inl (by omega)
      · right
        have hle := noimprove_gap_le maxni ε costs k
        have heq : k + 1 - (noimprove_gap maxni ε costs k + 1) =
            k - noimprove_gap maxni ε costs k := by omega
        rw [heq]
        exact h

/-- C8: a `noimprove_termination_criteria(max, ε)` node used alone returns
true at invocation `k` (0-indexed) iff the last `max` invocations — the
current one included — exist and none of them improved the tracked best by
more than ε (the tracked best starts at the `+∞` sentinel); moreover every
improving invocation stores the current cost as the new best, updates
`second_guess_m` from the pre-reset countdown, and leaves the countdown at
`max − 1` (the reset to `max` followed by the shared decrement). -/
theorem C8_noimprove_characterization (maxni : ℤ) (ε : gol_type)
    (costs : ℕ → gol_type) (hm : 0 ≤ maxni) (k : ℕ) :
    (noimprove_out maxni ε (fun _ => false) costs k = true ↔
      (maxni ≤ (k : ℤ) ∧ ∀ j : ℕ, j ≤ k → (k : ℤ) < (j : ℤ) + maxni →
        improvesAt maxni ε costs j = false)) ∧
    (improvesAt maxni ε costs k = true →
      (noimprove_state_at maxni ε costs (k + 1)).best_cost_m = some (costs k) ∧
      (noimprove_state_at maxni ε costs (k + 1)).second_guess_m =
        max (noimprove_state_at maxni ε costs k).second_guess_m
          (maxni - (noimprove_state_at maxni ε costs k).iterations_left_m) ∧
      (1 ≤ maxni →
        (noimprove_state_at maxni ε costs (k + 1)).iterations_left_m =
          maxni - 1)) := by
  constructor
  · unfold noimprove_out noimprove_step
    by_cases himp : improvesAt maxni ε costs k
    · rw [noimprove_update_improving maxni ε _ _ himp]
      by_cases hz : maxni ≤ 0
      · rw [noimprove_finish_stop _ _ hz]
        simp only [true_iff]
        refine ⟨by omega, ?_⟩
        intro j hj hwin
        exfalso
        omega
      · rw [noimprove_finish_go _ _ hz]
        simp only [Bool.false_eq_true, false_iff]
        intro hcon
        have hk := hcon.2 k le_rfl (by omega)
        rw [himp] at hk
        exact Bool.true_eq_false.mp hk
    · have himp2 : improvesBest ε
          (noimprove_state_at maxni ε costs k).best_cost_m (costs k) = false := by
        unfold improvesAt at himp
        simpa using himp
      rw [noimprove_update_stale maxni ε _ _ himp2]
      have hleft := noimprove_left_eq maxni ε costs hm k
      have hgle := noimprove_gap_le maxni ε costs k
      by_cases hz : (noimprove_state_at maxni ε costs k).iterations_left_m ≤ 0
      · rw [noimprove_finish_stop _ _ hz]
        simp only [true_iff]
        rw [hleft] at hz
        have hgap : maxni ≤ (noimprove_gap maxni ε costs k : ℤ) := by omega
        refine ⟨by omega, ?_⟩
        intro j hj hwin
        rcases Nat.lt_or_ge j k with hjk | hjk
        · refine noimprove_gap_window maxni ε costs k j hjk ?_
          push_cast at hgap hwin
          omega
        · have hjeq : j = k := by omega
          subst hjeq
          simpa using himp
      · rw [noimprove_finish_go _ _ hz]
        simp only [Bool.false_eq_true, false_iff]
        rw [hleft] at hz
        intro hcon
        have hgap : (noimprove_gap maxni ε costs k : ℤ) < maxni := by omega
        rcases noimprove_gap_last maxni ε costs k with h | h
        · rw [h] at hgap
          have := hcon.1
          omega
        · have hj0 := hcon.2 (k - noimprove_gap maxni ε costs k) (by omega)
            (by omega)
          rw [h] at hj0
          exact Bool.true_eq_false.mp hj0
  · intro himp
    have hstate : noimprove_state_at maxni ε costs (k + 1) =
        (noimprove_step maxni ε false (noimprove_state_at maxni ε costs k)
          (costs k)).2.2 := rfl
    rw [hstate]
    unfold noimprove_step
    rw [noimprove_update_improving maxni ε _ _ himp]
    by_cases hz : maxni ≤ 0
    · rw [noimprove_finish_stop _ _ hz]
      exact ⟨rfl, rfl, fun h1 => absurd h1 (by omega)⟩
    · rw [noimprove_finish_go _ _ hz]
      exact ⟨rfl, rfl, fun _ => rfl⟩

/-- C8 witness: `max = 1`, ε = 0, constant cost stream 5, at invocation
`k = 1`: the first invocation improved (the best starts at the sentinel), the
second does not, and the window of length 1 ending at it is improvement-free,
so it returns true. -/
theorem C8_noimprove_characterization_witness :
    ((noimprove_out 1 0 (fun _ => false) (fun _ => 5) 1 = true ↔
      ((1 : ℤ) ≤ ((1 : ℕ) : ℤ) ∧ ∀ j : ℕ, j ≤ 1 → ((1 : ℕ) : ℤ) < (j : ℤ) + 1 →
        improvesAt 1 0 (fun _ => 5) j = false)) ∧
    (improvesAt 1 0 (fun _ => 5) 1 = true →
      (noimprove_state_at 1 0 (fun _ => 5) 2).best_cost_m = some 5 ∧
      (noimprove_state_at 1 0 (fun _ => 5) 2).second_guess_m =
        max (noimprove_state_at 1 0 (fun _ => 5) 1).second_guess_m
          (1 - (noimprove_state_at 1 0 (fun _ => 5) 1).iterations_left_m) ∧
      ((1 : ℤ) ≤ 1 →
        (noimprove_state_at 1 0 (fun _ => 5) 2).iterations_left_m = 1 - 1))) :=
  C8_noimprove_characterization 1 0 (fun _ => 5) (by norm_num) 1

/-- C10: a `noimprove_termination_criteria` constructed with `max = 0`
returns true on every invocation — the very first call and strictly improving
calls included, whatever the cost stream — and never reaches the delegate
line, whatever the chained successor would answer. -/
theorem C10_noimprove_zero_max (ε : gol_type) (costs : ℕ → gol_type)
    (next : ℕ → Bool) (k : ℕ) :
    noimprove_out 0 ε next costs k = true ∧
    noimprove_delegated 0 ε next costs k = false := by
  have hleft : (noimprove_state_at 0 ε costs k).iterations_left_m ≤ 0 := by
    rw [noimprove_left_eq 0 ε costs le_rfl k]
    omega
  unfold noimprove_out noimprove_delegated noimprove_step
  by_cases himp : improvesBest ε
      (noimprove_state_at 0 ε costs k).best_cost_m (costs k) = true
  · rw [noimprove_update_improving 0 ε _ _ himp,
      noimprove_finish_stop _ _ (le_refl (0 : ℤ))]
    exact ⟨rfl, rfl⟩
  · have himp2 : improvesBest ε
        (noimprove_state_at 0 ε costs k).best_cost_m (costs k) = false := by
      simpa using himp
    rw [noimprove_update_stale 0 ε _ _ himp2, noimprove_finish_stop _ _ hleft]
    exact ⟨rfl, rfl⟩

/-- C6 (amended): `copy_from` raises TypeMismatch at the call site exactly
when the source is not a `permutation_problem` (the `dynamic_cast` throws
before any assignment, so the receiver is untouched), and deep-copies π and
the cached cost otherwise; the moves' `evaluate`/`apply` reach the solution
through an unchecked `static_cast`, which raises nothing — against an
incompatible solution their behavior is undefined, never a TypeMismatch. -/
theorem C6_type_mismatch (U : UserModel) (t p : permutation_problem) (tag : ℕ)
    (sm : swap_elements) (im : invert_subsequence) :
    copy_from t (FeasibleSol.other tag) =
      CxxOutcome.thrown MetsError.typeMismatch ∧
    copy_from t (FeasibleSol.perm p) = CxxOutcome.ok ⟨p.pi_m, p.cost_m⟩ ∧
    swap_elements.evaluateF U sm (FeasibleSol.other tag) = CxxOutcome.undefined ∧
    swap_elements.applyF U sm (FeasibleSol.other tag) = CxxOutcome.undefined ∧
    invert_subsequence.evaluateF U im (FeasibleSol.other tag) =
      CxxOutcome.undefined ∧
    invert_subsequence.applyF U im (FeasibleSol.other tag) =
      CxxOutcome.undefined :=
  ⟨rfl, rfl, rfl, rfl, rfl, rfl⟩

/-- C6 counterexample: `swap_elements::apply` invoked against a concrete
solution that is not a `permutation_problem` does not raise TypeMismatch:
its unchecked `static_cast` makes the call undefined behavior instead. -/
theorem C6_counterexample :
    swap_elements.applyF ⟨fun _ => 0, fun _ _ _ => 0⟩ ⟨0, 1⟩
      (FeasibleSol.other 0) = CxxOutcome.undefined ∧
    swap_elements.applyF ⟨fun _ => 0, fun _ _ _ => 0⟩ ⟨0, 1⟩
      (FeasibleSol.other 0) ≠ CxxOutcome.thrown MetsError.typeMismatch :=
  ⟨rfl, by simp [swap_elements.applyF, statCastPerm]⟩

/-- C7 (amended): `exponential_cooling(α)` raises InvalidParameter iff
`α ≥ 1` — any `α ≤ 0` is accepted — and `linear_cooling(δ)` raises iff
`δ ≤ 0`; the neighborhood constructors perform no size validation and never
raise: with size = 1 (< 2) the full swap and full invert neighborhoods
construct empty move queues, and the stochastic swap neighborhood constructs
`k` placeholder moves for any `k`. -/
theorem C7_construction_validation (alpha delta : gol_type) (k : ℕ) :
    (exponential_cooling.make alpha =
      CxxOutcome.thrown MetsError.invalidParameter ↔ 1 ≤ alpha) ∧
    (¬ 1 ≤ alpha → exponential_cooling.make alpha = CxxOutcome.ok ⟨alpha⟩) ∧
    (linear_cooling.make delta =
      CxxOutcome.thrown MetsError.invalidParameter ↔ delta ≤ 0) ∧
    (¬ delta ≤ 0 → linear_cooling.make delta = CxxOutcome.ok ⟨delta⟩) ∧
    swap_full_neighborhood 1 = [] ∧
    invert_full_neighborhood 1 = [] ∧
    (swap_neighborhood_ctor k).length = k := by
  refine ⟨?_, ?_, ?_, ?_, ?_, ?_, ?_⟩
  · unfold exponential_cooling.make
    by_cases h : 1 ≤ alpha
    · simp [h]
    · simp [h]
  · intro h
    unfold exponential_cooling.make
    rw [if_neg h]
  · unfold linear_cooling.make
    by_cases h : delta ≤ 0
    · simp [h]
    · simp [h]
  · intro h
    unfold linear_cooling.make
    rw [if_neg h]
  · rfl
  · rfl
  · simp [swap_neighborhood_ctor]

/-- C7 counterexample: `exponential_cooling(0)` — a parameter violating
`0 < α < 1` — is accepted without raising anything: the constructor only
checks `alpha >= 1`. -/
theorem C7_counterexample :
    exponential_cooling.make 0 = CxxOutcome.ok ⟨0⟩ ∧
    exponential_cooling.make 0 ≠ CxxOutcome.thrown MetsError.invalidParameter := by
  constructor
  · unfold exponential_cooling.make
    rw [if_neg (by norm_num)]
  · unfold exponential_cooling.make
    rw [if_neg (by norm_num)]
    simp

theorem drawsBefore_zero {σ : Type} (base : gol_type) (ms : List (SAMove σ))
    (sol : σ) : drawsBefore base ms sol 0 = 0 := by
  simp [drawsBefore]

theorem drawsBefore_cons {σ : Type} (base : gol_type) (m : SAMove σ)
    (rest : List (SAMove σ)) (sol : σ) (i : ℕ) :
    drawsBefore base (m :: rest) sol (i + 1) =
      (if 0 ≤ deltaOf base m sol then 1 else 0) + drawsBefore base rest sol i := by
  unfold drawsBefore
  rw [List.take_succ_cons, List.filter_cons]
  by_cases h : 0 ≤ deltaOf base m sol
  · rw [if_pos (by simpa using h), if_pos h]
    rw [List.length_cons]
    omega
  · rw [if_neg (by simpa using h), if_neg h]
    simp

theorem innerScan_none {σ μ τ ρ : Type} (env : SAEnv σ μ τ ρ)
    (base temp : gol_type) :
    ∀ (ms : List (SAMove σ)) (sol : σ) (rcd : ρ) (di : ℕ),
      (∀ j (hj : j < ms.length),
        ¬ acceptMove env base temp sol (di + drawsBefore base ms sol j)
          (ms.get ⟨j, hj⟩)) →
      innerScan env base temp ms sol rcd di =
        (sol, rcd, di + drawsBefore base ms sol ms.length, false) := by
  intro ms
  induction ms with
  | nil =>
    intro sol rcd di _
    simp [innerScan, drawsBefore]
  | cons m rest ih =>
    intro sol rcd di h
    have h0 : ¬ acceptMove env base temp sol di m := by
      have := h 0 (by simp)
      simpa [drawsBefore_zero] using this
    have hd : ¬ deltaOf base m sol < 0 := fun hlt => h0 (Or.inl hlt)
    have hd2 : ¬ (m.evaluateM sol - base < 0) := hd
    have hdd : (0 : gol_type) ≤ deltaOf base m sol := not_lt.mp hd
    have hr2 : ¬ (env.draws di <
        env.expO (-(m.evaluateM sol - base) / (env.K_m * temp))) :=
      fun hlt => h0 (Or.inr hlt)
    show (if m.evaluateM sol - base < 0 then _ else _) = _
    rw [if_neg hd2, if_neg hr2]
    have hrest : ∀ j (hj : j < rest.length),
        ¬ acceptMove env base temp sol
          ((di + 1) + drawsBefore base rest sol j) (rest.get ⟨j, hj⟩) := by
      intro j hj
      have hj1 := h (j + 1) (by simpa using Nat.succ_lt_succ hj)
      rw [drawsBefore_cons, if_pos hdd] at hj1
      have harr : di + (1 + drawsBefore base rest sol j) =
          (di + 1) + drawsBefore base rest sol j := by omega
      rw [harr] at hj1
      exact hj1
    rw [ih sol rcd (di + 1) hrest]
    have hlen : (m :: rest).length = rest.length + 1 := rfl
    rw [hlen, drawsBefore_cons, if_pos hdd]
    have : di + 1 + drawsBefore base rest sol rest.length =
        di + (1 + drawsBefore base rest sol rest.length) := by omega
    rw [this]

theorem innerScan_first {σ μ τ ρ : Type} (env : SAEnv σ μ τ ρ)
    (base temp : gol_type) :
    ∀ (i : ℕ) (ms : List (SAMove σ)) (sol : σ) (rcd : ρ) (di : ℕ)
      (hi : i < ms.length),
      acceptMove env base temp sol (di + drawsBefore base ms sol i)
        (ms.get ⟨i, hi⟩) →
      (∀ j (hj : j < i),
        ¬ acceptMove env base temp sol (di + drawsBefore base ms sol j)
          (ms.get ⟨j, Nat.lt_trans hj hi⟩)) →
      innerScan env base temp ms sol rcd di =
        ((ms.get ⟨i, hi⟩).applyM sol,
         (env.recAccept ((ms.get ⟨i, hi⟩).applyM sol) rcd).2,
         di + drawsBefore base ms sol i +
           (if deltaOf base (ms.get ⟨i, hi⟩) sol < 0 then 0 else 1), true) ∧
      innerScan env base temp ms sol rcd di =
        innerScan env base temp (ms.take (i + 1)) sol rcd di := by
  intro i
  induction i with
  | zero =>
    intro ms sol rcd di hi hacc _
    match ms, hi with
    | m :: rest, h0lt =>
      have hg : (m :: rest).get ⟨0, h0lt⟩ = m := rfl
      rw [hg] at hacc ⊢
      rw [drawsBefore_zero]
      by_cases hd : deltaOf base m sol < 0
      · have hd2 : m.evaluateM sol - base < 0 := hd
        have hL : innerScan env base temp (m :: rest) sol rcd di =
            (m.applyM sol, (env.recAccept (m.applyM sol) rcd).2, di, true) := by
          show (if m.evaluateM sol - base < 0 then _ else _) = _
          rw [if_pos hd2]
        constructor
        · rw [hL, if_pos hd]
          rfl
        · rw [List.take_succ_cons, List.take_zero, hL]
          show _ = (if m.evaluateM sol - base < 0 then _ else _)
          rw [if_pos hd2]
      · have hd2 : ¬ (m.evaluateM sol - base < 0) := hd
        have hdr : env.draws (di + 0) <
            env.expO (-(deltaOf base m sol) / (env.K_m * temp)) := by
          rcases hacc with hlt | hdraw
          · exact absurd hlt hd
          · exact hdraw
        rw [Nat.add_zero] at hdr
        have hdr2 : env.draws di <
            env.expO (-(m.evaluateM sol - base) / (env.K_m * temp)) := hdr
        have hL : innerScan env base temp (m :: rest) sol rcd di =
            (m.applyM sol, (env.recAccept (m.applyM sol) rcd).2, di + 1, true) := by
          show (if m.evaluateM sol - base < 0 then _ else _) = _
          rw [if_neg hd2, if_pos hdr2]
        constructor
        · rw [hL, if_neg hd]
        · rw [List.take_succ_cons, List.take_zero, hL]
          show _ = (if m.evaluateM sol - base < 0 then _ else _)
          rw [if_neg hd2, if_pos hdr2]
  | succ i2 ih =>
    intro ms sol rcd di hi hacc hmin
    match ms, hi with
    | m :: rest, hi =>
      simp only [List.get_cons_succ] at hacc ⊢
      have h0 : ¬ acceptMove env base temp sol di m := by
        have := hmin 0 (Nat.succ_pos i2)
        simpa [drawsBefore_zero] using this
      have hd : ¬ deltaOf base m sol < 0 := fun hlt => h0 (Or.inl hlt)
      have hd2 : ¬ (m.evaluateM sol - base < 0) := hd
      have hr2 : ¬ (env.draws di <
          env.expO (-(m.evaluateM sol - base) / (env.K_m * temp))) :=
        fun hlt => h0 (Or.inr hlt)
      have hdd : (0 : gol_type) ≤ deltaOf base m sol := not_lt.mp hd
      have hi2 : i2 < rest.length := by simpa using Nat.lt_of_succ_lt_succ hi
      have hacc2 : acceptMove env base temp sol
          ((di + 1) + drawsBefore base rest sol i2) (rest.get ⟨i2, hi2⟩) := by
        rw [drawsBefore_cons, if_pos hdd] at hacc
        have harr : di + (1 + drawsBefore base rest sol i2) =
            (di + 1) + drawsBefore base rest sol i2 := by omega
        rw [harr] at hacc
        exact hacc
      have hmin2 : ∀ j (hj : j < i2),
          ¬ acceptMove env base temp sol
            ((di + 1) + drawsBefore base rest sol j)
            (rest.get ⟨j, Nat.lt_trans hj hi2⟩) := by
        intro j hj
        have hj1 := hmin (j + 1) (Nat.succ_lt_succ hj)
        rw [drawsBefore_cons, if_pos hdd] at hj1
        have harr : di + (1 + drawsBefore base rest sol j) =
            (di + 1) + drawsBefore base rest sol j := by omega
        rw [harr] at hj1
        exact hj1
      have hih := ih rest sol rcd (di + 1) hi2 hacc2 hmin2
      constructor
      · show (if m.evaluateM sol - base < 0 then _ else _) = _
        rw [if_neg hd2, if_neg hr2]
        rw [hih.1]
        rw [drawsBefore_cons, if_pos hdd]
        have harr : di + (1 + drawsBefore base rest sol i2) =
            (di + 1) + drawsBefore base rest sol i2 := by omega
        rw [harr]
      · have hL : innerScan env base temp (m :: rest) sol rcd di =
            innerScan env base temp rest sol rcd (di + 1) := by
          show (if m.evaluateM sol - base < 0 then _ else _) = _
          rw [if_neg hd2, if_neg hr2]
        have hR : innerScan env base temp (m :: List.take (i2 + 1) rest) sol
              rcd di =
            innerScan env base temp (List.take (i2 + 1) rest) sol rcd (di + 1) := by
          show (if m.evaluateM sol - base < 0 then _ else _) = _
          rw [if_neg hd2, if_neg hr2]
        rw [List.take_succ_cons, hL, hR]
        exact hih.2

/-- C3: the outer loop of `simulated_annealing::search()` exits exactly when
the termination chain answers true on the working solution or
`current_temp_m ≤ stop_temp_m`; one outer iteration reads the base cost from
the working solution before refreshing the neighborhood and cools the
temperature from the post-scan solution; within the scan a move at position
`i` is accepted iff `Δ < 0` or the next uniform draw (consumed only when
`Δ ≥ 0`) is below `exp(−Δ/(K·T))`, the first accepted move is applied (with
the recorder consulted) and ends the scan — the result equals the scan of the
list truncated right after it, so no later move is evaluated — and when no
move is accepted the solution is unchanged. -/
theorem C3_sa_search_loop {σ μ τ ρ : Type} (env : SAEnv σ μ τ ρ)
    (st : SAState σ μ τ ρ) (fuel : ℕ) (base temp : gol_type)
    (ms : List (SAMove σ)) (sol : σ) (rcd : ρ) (di i : ℕ) :
    ((env.termStep st.working st.term).1 = true ∨
        st.current_temp_m ≤ env.stop_temp_m →
      saLoop env (fuel + 1) st =
        { st with term := (env.termStep st.working st.term).2 }) ∧
    (¬ ((env.termStep st.working st.term).1 = true ∨
        st.current_temp_m ≤ env.stop_temp_m) →
      saLoop env (fuel + 1) st =
        saLoop env fuel
          (saStep env { st with term := (env.termStep st.working st.term).2 })) ∧
    ((saStep env st).working =
      (innerScan env (env.costFn st.working) st.current_temp_m
        (env.movesOf (env.refresh st.working st.moveman)) st.working
        st.recorder st.drawIdx).1 ∧
     (saStep env st).current_temp_m =
      env.cool st.current_temp_m (saStep env st).working) ∧
    ((∀ j (hj : j < ms.length),
        ¬ acceptMove env base temp sol (di + drawsBefore base ms sol j)
          (ms.get ⟨j, hj⟩)) →
      innerScan env base temp ms sol rcd di =
        (sol, rcd, di + drawsBefore base ms sol ms.length, false)) ∧
    (∀ (hi : i < ms.length),
      acceptMove env base temp sol (di + drawsBefore base ms sol i)
        (ms.get ⟨i, hi⟩) →
      (∀ j (hj : j < i),
        ¬ acceptMove env base temp sol (di + drawsBefore base ms sol j)
          (ms.get ⟨j, Nat.lt_trans hj hi⟩)) →
      innerScan env base temp ms sol rcd di =
        ((ms.get ⟨i, hi⟩).applyM sol,
         (env.recAccept ((ms.get ⟨i, hi⟩).applyM sol) rcd).2,
         di + drawsBefore base ms sol i +
           (if deltaOf base (ms.get ⟨i, hi⟩) sol < 0 then 0 else 1), true) ∧
      innerScan env base temp ms sol rcd di =
        innerScan env base temp (ms.take (i + 1)) sol rcd di) := by
  refine ⟨?_, ?_, ⟨rfl, rfl⟩, ?_, ?_⟩
  · intro h
    show (if _ then _ else _) = _
    rw [if_pos h]
  · intro h
    show (if _ then _ else _) = _
    rw [if_neg h]
  · exact innerScan_none env base temp ms sol rcd di
  · exact innerScan_first env base temp i ms sol rcd di

theorem fold_apply_swap_pi (U : UserModel) (prs : List (ℕ × ℕ)) :
    ∀ (p : permutation_problem),
      (prs.foldl (fun q pr => apply_swap U q pr.1 pr.2) p).pi_m =
        prs.foldl (fun l2 pr => listSwap l2 pr.1 pr.2) p.pi_m := by
  induction prs with
  | nil => intro p; rfl
  | cons pr rest ih =>
    intro p
    exact ih (apply_swap U p pr.1 pr.2)

theorem foldSwap_length (prs : List (ℕ × ℕ)) :
    ∀ (l : List ℤ),
      (prs.foldl (fun l2 pr => listSwap l2 pr.1 pr.2) l).length = l.length := by
  induction prs with
  | nil => intro l; rfl
  | cons pr rest ih =>
    intro l
    rw [List.foldl_cons, ih, listSwap_length]

/-- Effect of a fold of element swaps whose index pairs are pairwise
disjoint across pairs: each pair's two positions exchange the base list's
entries, every other position is untouched. -/
theorem foldSwap_char :
    ∀ (prs : List (ℕ × ℕ)) (l : List ℤ),
      (∀ pr ∈ prs, pr.1 < l.length ∧ pr.2 < l.length) →
      List.Pairwise
        (fun pr pr2 => pr.1 ≠ pr2.1 ∧ pr.1 ≠ pr2.2 ∧ pr.2 ≠ pr2.1 ∧ pr.2 ≠ pr2.2)
        prs →
      (∀ pr ∈ prs,
        (prs.foldl (fun l2 q => listSwap l2 q.1 q.2) l).getD pr.1 0 =
          l.getD pr.2 0 ∧
        (prs.foldl (fun l2 q => listSwap l2 q.1 q.2) l).getD pr.2 0 =
          l.getD pr.1 0) ∧
      (∀ pos : ℕ, (∀ pr ∈ prs, pos ≠ pr.1 ∧ pos ≠ pr.2) →
        (prs.foldl (fun l2 q => listSwap l2 q.1 q.2) l).getD pos 0 =
          l.getD pos 0) := by
  intro prs
  induction prs with
  | nil =>
    intro l _ _
    exact ⟨fun pr h => absurd h (List.not_mem_nil pr), fun pos _ => rfl⟩
  | cons pr0 rest ih =>
    intro l hrange hpw
    have h0 := hrange pr0 (List.mem_cons_self pr0 rest)
    have hlen2 : (listSwap l pr0.1 pr0.2).length = l.length := listSwap_length _ _ _
    have hrange2 : ∀ pr ∈ rest, pr.1 < (listSwap l pr0.1 pr0.2).length ∧
        pr.2 < (listSwap l pr0.1 pr0.2).length := by
      intro pr hpr
      rw [hlen2]
      exact hrange pr (List.mem_cons_of_mem pr0 hpr)
    have hdisj0 := (List.pairwise_cons.mp hpw).1
    have hpw2 := (List.pairwise_cons.mp hpw).2
    have hih := ih (listSwap l pr0.1 pr0.2) hrange2 hpw2
    have hfold : ((pr0 :: rest).foldl (fun l2 q => listSwap l2 q.1 q.2) l) =
        rest.foldl (fun l2 q => listSwap l2 q.1 q.2) (listSwap l pr0.1 pr0.2) := rfl
    constructor
    · intro pr hpr
      rcases List.mem_cons.mp hpr with heq | hmem
      · subst heq
        rw [hfold]
        constructor
        · rw [hih.2 pr.1 (fun q hq => ⟨(hdisj0 q hq).1, (hdisj0 q hq).2.1⟩)]
          exact listSwap_getD_left l pr.1 pr.2 h0.1 h0.2
        · rw [hih.2 pr.2 (fun q hq => ⟨(hdisj0 q hq).2.2.1, (hdisj0 q hq).2.2.2⟩)]
          exact listSwap_getD_right l pr.1 pr.2 h0.1 h0.2
      · rw [hfold]
        have hd := hdisj0 pr hmem
        constructor
        · rw [(hih.1 pr hmem).1]
          exact listSwap_getD_other l pr0.1 pr0.2 pr.2
            (Ne.symm hd.2.1) (Ne.symm hd.2.2.2)
        · rw [(hih.1 pr hmem).2]
          exact listSwap_getD_other l pr0.1 pr0.2 pr.1
            (Ne.symm hd.1) (Ne.symm hd.2.2.1)
    · intro pos hpos
      rw [hfold]
      rw [hih.2 pos (fun q hq => hpos q (List.mem_cons_of_mem pr0 hq))]
      have h1 := hpos pr0 (List.mem_cons_self pr0 rest)
      exact listSwap_getD_other l pr0.1 pr0.2 pos h1.1 h1.2

theorem mod_add_left_cancel (n a x y : ℕ) (hx : x < n) (hy : y < n)
    (h : (a + x) % n = (a + y) % n) : x = y := by
  have hmod : x ≡ y [MOD n] := Nat.ModEq.add_left_cancel' a h
  have h2 : x % n = y % n := hmod
  rw [Nat.mod_eq_of_lt hx, Nat.mod_eq_of_lt hy] at h2
  exact h2

theorem mod_sub_cancel (n b x y : ℕ) (hxb : x ≤ b) (hyb : y ≤ b)
    (hx : x < n) (hy : y < n) (h : (b - x) % n = (b - y) % n) : x = y := by
  have hmod : (b - x) ≡ (b - y) [MOD n] := h
  have hmod2 := hmod.add_right (x + y)
  have e1 : (b - x) + (x + y) = b + y := by omega
  have e2 : (b - y) + (x + y) = b + x := by omega
  rw [e1, e2] at hmod2
  have hmod3 : y ≡ x [MOD n] := Nat.ModEq.add_left_cancel' b hmod2
  have h2 : y % n = x % n := hmod3
  rw [Nat.mod_eq_of_lt hy, Nat.mod_eq_of_lt hx] at h2
  omega

theorem mod_cross_sum (n p1 p2 x y : ℕ) (hy : y ≤ n + p2) (hp1 : p1 ≤ n + p2)
    (h : (p1 + x) % n = (n + p2 - y) % n) :
    (x + y) % n = (n + p2 - p1) % n := by
  have hmod : (p1 + x) ≡ (n + p2 - y) [MOD n] := h
  have hmod2 := hmod.add_right y
  have e1 : (n + p2 - y) + y = n + p2 := by omega
  rw [e1] at hmod2
  have e2 : n + p2 = p1 + (n + p2 - p1) := by omega
  rw [e2] at hmod2
  have e3 : (p1 + x) + y = p1 + (x + y) := by omega
  rw [e3] at hmod2
  exact Nat.ModEq.add_left_cancel' p1 hmod2

theorem pos_of_offset (n p1 q : ℕ) (hq : q < n) (hp1 : p1 ≤ n) :
    (p1 + (q + n - p1) % n) % n = q := by
  have h1 : (p1 + (q + n - p1) % n) % n = (p1 + (q + n - p1)) % n :=
    (Nat.mod_modEq (q + n - p1) n).add_left p1
  rw [h1]
  have h2 : p1 + (q + n - p1) = q + n := by omega
  rw [h2, Nat.add_mod_right, Nat.mod_eq_of_lt hq]

/-- C2 (amended): `invert_subsequence(p1, p2).apply` on a permutation of
size `n ≥ 2` performs exactly `⌊top/2⌋` paired `apply_swap` calls, where
`top = p2−p1+1` for `p1 < p2` and `n+p2−p1+1` otherwise; for `p1 ≠ p2` this
`top` equals the claimed `(p2−p1+1) mod n` (with `n` substituted when that
mod is 0) and the result is the reversal of the circular subsequence from
`p1` to `p2`: every position `q` whose circular offset `(q−p1) mod n` lies
below `top` receives the entry from `(p1+p2−q) mod n`, every other position
is unchanged.  For `p1 = p2` the code sets `top = n+1` (not 1): it performs
`⌊(n+1)/2⌋` swaps and reverses the whole circle around the fixed point `p1`
(the same formula, with every offset below `top`), instead of doing nothing.
In particular (scenario S4) the claimed result (3,1,0,4,2) is wrong: on
`n = 5`, π = (0,1,2,3,4), `InvertSubsequence(3, 1).apply` yields
π = (4,3,2,1,0), the true reversal of the path 3→4→0→1. -/
theorem C2_invert_apply (U : UserModel) (p : permutation_problem)
    (m : invert_subsequence) (n : ℕ) (hn : 2 ≤ n) (hlen : p.pi_m.length = n)
    (hp1 : m.p1 < n) (hp2 : m.p2 < n) :
    (invert_pairs n m.p1 m.p2).length = invert_top n m.p1 m.p2 / 2 ∧
    (m.p1 ≠ m.p2 → ((invert_top n m.p1 m.p2 : ℕ) : ℤ) =
      (if ((m.p2 : ℤ) - (m.p1 : ℤ) + 1) % (n : ℤ) = 0 then ((n : ℕ) : ℤ)
       else ((m.p2 : ℤ) - (m.p1 : ℤ) + 1) % (n : ℤ))) ∧
    (invert_subsequence.applyMove U m p).pi_m.length = n ∧
    (∀ q, q < n →
      (invert_subsequence.applyMove U m p).pi_m.getD q 0 =
        (if (q + n - m.p1) % n < invert_top n m.p1 m.p2 then
          p.pi_m.getD ((m.p1 + m.p2 + n - q) % n) 0
        else p.pi_m.getD q 0)) := by
  obtain ⟨p1, p2⟩ := m
  dsimp only at hp1 hp2 ⊢
  have hn0 : 0 < n := by omega
  have hT2 : 2 ≤ invert_top n p1 p2 := by
    unfold invert_top
    split <;> omega
  have hTle : invert_top n p1 p2 ≤ n + 1 := by
    unfold invert_top
    split <;> omega
  have hTne : p1 ≠ p2 → invert_top n p1 p2 ≤ n := by
    intro h
    unfold invert_top
    split <;> omega
  have hTeq : p1 = p2 → invert_top n p1 p2 = n + 1 := by
    intro h
    unfold invert_top
    split <;> omega
  have happ : (invert_subsequence.applyMove U ⟨p1, p2⟩ p).pi_m =
      (invert_pairs n p1 p2).foldl (fun l2 pr => listSwap l2 pr.1 pr.2) p.pi_m := by
    show ((invert_pairs p.size p1 p2).foldl
      (fun q pr => apply_swap U q pr.1 pr.2) p).pi_m = _
    rw [show p.size = n from hlen]
    exact fold_apply_swap_pi U (invert_pairs n p1 p2) p
  have hrange : ∀ pr ∈ invert_pairs n p1 p2,
      pr.1 < p.pi_m.length ∧ pr.2 < p.pi_m.length := by
    intro pr hpr
    rw [hlen]
    unfold invert_pairs at hpr
    rcases List.mem_map.mp hpr with ⟨ii, _, rfl⟩
    exact ⟨Nat.mod_lt _ hn0, Nat.mod_lt _ hn0⟩
  have hT1mod : (invert_top n p1 p2 - 1) % n = (n + p2 - p1) % n := by
    unfold invert_top
    split
    · have e : n + p2 - p1 = (p2 - p1) + n := by omega
      rw [e, Nat.add_mod_right]
      congr 1
    · congr 1
  have hcross : ∀ x y : ℕ, y ≤ n + p2 →
      (p1 + x) % n = (n + p2 - y) % n →
      (x + y) % n = (n + p2 - p1) % n := by
    intro x y hy h
    exact mod_cross_sum n p1 p2 x y hy (by omega) h
  have hnocross : ∀ x y : ℕ, x < invert_top n p1 p2 / 2 →
      y < invert_top n p1 p2 / 2 → x ≠ y →
      (p1 + x) % n ≠ (n + p2 - y) % n := by
    intro x y hx hy hne heq
    have hsum := hcross x y (by omega) heq
    rw [← hT1mod] at hsum
    rcases Nat.lt_or_ge (invert_top n p1 p2 - 1) n with hc | hc
    · rw [Nat.mod_eq_of_lt (by omega), Nat.mod_eq_of_lt hc] at hsum
      omega
    · have hTn : invert_top n p1 p2 - 1 = n := by omega
      rw [hTn, Nat.mod_self, Nat.mod_eq_of_lt (by omega)] at hsum
      omega
  have hpw : List.Pairwise
      (fun pr pr2 => pr.1 ≠ pr2.1 ∧ pr.1 ≠ pr2.2 ∧ pr.2 ≠ pr2.1 ∧ pr.2 ≠ pr2.2)
      (invert_pairs n p1 p2) := by
    unfold invert_pairs
    rw [List.pairwise_map]
    refine List.Pairwise.imp_of_mem ?_ (List.pairwise_lt_range _)
    intro a b ha hb hab
    rw [List.mem_range] at ha hb
    refine ⟨?_, ?_, ?_, ?_⟩
    · intro heq
      have := mod_add_left_cancel n p1 a b (by omega) (by omega) heq
      omega
    · exact hnocross a b ha hb (by omega)
    · intro heq
      exact hnocross b a hb ha (by omega) heq.symm
    · intro heq
      have := mod_sub_cancel n (n + p2) a b (by omega) (by omega)
        (by omega) (by omega) heq
      omega
  have hchar := foldSwap_char (invert_pairs n p1 p2) p.pi_m hrange hpw
  refine ⟨?_, ?_, ?_, ?_⟩
  · unfold invert_pairs
    rw [List.length_map, List.length_range]
  · intro hne
    unfold invert_top
    by_cases hc : p1 < p2
    · rw [if_pos hc]
      by_cases hEdge : p2 - p1 + 1 = n
      · have he : ((p2 : ℤ) - (p1 : ℤ) + 1) = (n : ℤ) := by omega
        rw [he, Int.emod_self, if_pos rfl]
        omega
      · have h0 : (0 : ℤ) ≤ (p2 : ℤ) - (p1 : ℤ) + 1 := by omega
        have h1 : (p2 : ℤ) - (p1 : ℤ) + 1 < (n : ℤ) := by omega
        rw [Int.emod_eq_of_lt h0 h1, if_neg (by omega)]
        omega
    · rw [if_neg hc]
      have hlt : p2 < p1 := by omega
      have he : ((p2 : ℤ) - (p1 : ℤ) + 1) % (n : ℤ) =
          ((p2 : ℤ) - (p1 : ℤ) + 1 + (n : ℤ)) % (n : ℤ) :=
        Int.add_emod_self.symm
      rw [he]
      by_cases hEdge : (p2 : ℤ) - (p1 : ℤ) + 1 + (n : ℤ) = (n : ℤ)
      · rw [hEdge, Int.emod_self, if_pos rfl]
        omega
      · have h0 : (0 : ℤ) ≤ (p2 : ℤ) - (p1 : ℤ) + 1 + (n : ℤ) := by omega
        have h1 : (p2 : ℤ) - (p1 : ℤ) + 1 + (n : ℤ) < (n : ℤ) := by omega
        rw [Int.emod_eq_of_lt h0 h1, if_neg (by omega)]
        omega
  · rw [happ, foldSwap_length, hlen]
  · intro q hq
    rw [happ]
    set T := invert_top n p1 p2 with hTdef
    set d := (q + n - p1) % n with hdDef
    have hdn : d < n := Nat.mod_lt _ hn0
    have hq_eq : (p1 + d) % n = q := pos_of_offset n p1 q hq (by omega)
    have hqmod : (p1 + d) ≡ q [MOD n] := by
      show (p1 + d) % n = q % n
      rw [Nat.mod_eq_of_lt hq]
      exact hq_eq
    have hidx : (n + p2 - d) % n = (p1 + p2 + n - q) % n := by
      apply Nat.ModEq.add_right_cancel' (d + q)
      have e1 : (n + p2 - d) + (d + q) = (n + p2) + q := by omega
      have e2 : (p1 + p2 + n - q) + (d + q) = ((n + p2) + (p1 + d)) + 0 := by omega
      rw [e1, e2]
      have h3 := Nat.ModEq.add_left (n + p2) hqmod.symm
      have e3 : ((n + p2) + (p1 + d)) + 0 = (n + p2) + (p1 + d) := by omega
      rw [e3]
      exact h3
    have hmid_cong : p1 + (T - 1) ≡ n + p2 [MOD n] := by
      have h4 := Nat.ModEq.add_left p1 hT1mod
      have e3 : p1 + (n + p2 - p1) = n + p2 := by omega
      rw [e3] at h4
      exact h4
    by_cases hA : d < T / 2
    · have hmem : ((p1 + d) % n, (n + p2 - d) % n) ∈ invert_pairs n p1 p2 := by
        unfold invert_pairs
        exact List.mem_map.mpr ⟨d, List.mem_range.mpr hA, rfl⟩
      have hval := (hchar.1 _ hmem).1
      rw [hq_eq] at hval
      rw [hval, if_pos (by omega : d < T)]
      rw [hidx]
    · by_cases hC : T ≤ d
      · have huntouched : ∀ pr ∈ invert_pairs n p1 p2, q ≠ pr.1 ∧ q ≠ pr.2 := by
          intro pr hpr
          unfold invert_pairs at hpr
          rcases List.mem_map.mp hpr with ⟨ii, hii, rfl⟩
          rw [List.mem_range] at hii
          constructor
          · intro heq
            have := mod_add_left_cancel n p1 d ii hdn (by omega)
              (by rw [hq_eq, heq])
            omega
          · intro heq
            have hsum := hcross d ii (by omega) (by rw [hq_eq, heq])
            rw [← hT1mod] at hsum
            have hT1n : T - 1 < n := by omega
            rw [Nat.mod_eq_of_lt hT1n] at hsum
            rcases Nat.lt_or_ge (d + ii) n with hcase | hcase
            · rw [Nat.mod_eq_of_lt hcase] at hsum
              omega
            · rw [Nat.mod_eq_sub_mod hcase,
                Nat.mod_eq_of_lt (by omega : d + ii - n < n)] at hsum
              omega
        rw [hchar.2 q huntouched, if_neg (by omega)]
      · by_cases hB : T - 1 - d < T / 2
        · set ii := T - 1 - d with hiiDef
          have hmem : ((p1 + ii) % n, (n + p2 - ii) % n) ∈ invert_pairs n p1 p2 := by
            unfold invert_pairs
            exact List.mem_map.mpr ⟨ii, List.mem_range.mpr hB, rfl⟩
          have hqsnd : (n + p2 - ii) % n = q := by
            rw [← hq_eq]
            apply Nat.ModEq.add_right_cancel' ii
            have e1 : (n + p2 - ii) + ii = n + p2 := by omega
            have e2 : (p1 + d) + ii = p1 + (T - 1) := by omega
            rw [e1, e2]
            exact hmid_cong.symm
          have hval := (hchar.1 _ hmem).2
          rw [hqsnd] at hval
          rw [hval, if_pos (by omega : d < T)]
          have h5 : (p1 + ii) % n = (n + p2 - d) % n := by
            apply Nat.ModEq.add_right_cancel' d
            have e1 : (p1 + ii) + d = p1 + (T - 1) := by omega
            have e2 : (n + p2 - d) + d = n + p2 := by omega
            rw [e1, e2]
            exact hmid_cong
          rw [h5, hidx]
        · have h2d : 2 * d + 1 = T := by omega
          have huntouched : ∀ pr ∈ invert_pairs n p1 p2, q ≠ pr.1 ∧ q ≠ pr.2 := by
            intro pr hpr
            unfold invert_pairs at hpr
            rcases List.mem_map.mp hpr with ⟨jj, hjj, rfl⟩
            rw [List.mem_range] at hjj
            constructor
            · intro heq
              have := mod_add_left_cancel n p1 d jj hdn (by omega)
                (by rw [hq_eq, heq])
              omega
            · intro heq
              have hsum := hcross d jj (by omega) (by rw [hq_eq, heq])
              rw [← hT1mod] at hsum
              rcases Nat.lt_or_ge (T - 1) n with hc | hc
              · rw [Nat.mod_eq_of_lt hc,
                  Nat.mod_eq_of_lt (by omega : d + jj < n)] at hsum
                omega
              · have hTn : T - 1 = n := by omega
                rw [hTn, Nat.mod_self,
                  Nat.mod_eq_of_lt (by omega : d + jj < n)] at hsum
                omega
          rw [hchar.2 q huntouched, if_pos (by omega : d < T)]
          have hfix : (p1 + p2 + n - q) % n = q := by
            have hsum : (p1 + p2 + n - q) + q ≡ q + q [MOD n] := by
              have e1 : (p1 + p2 + n - q) + q = p1 + p2 + n := by omega
              rw [e1]
              have h6 : q + q ≡ (p1 + d) + (p1 + d) [MOD n] :=
                Nat.ModEq.add hqmod.symm hqmod.symm
              have e2 : (p1 + d) + (p1 + d) = 2 * p1 + (2 * d) := by omega
              rw [e2] at h6
              have e4 : 2 * d = T - 1 := by omega
              rw [e4] at h6
              have h7 : 2 * p1 + (T - 1) ≡ 2 * p1 + (n + p2 - p1) [MOD n] :=
                Nat.ModEq.add_left _ hT1mod
              have e5 : 2 * p1 + (n + p2 - p1) = p1 + p2 + n := by omega
              rw [e5] at h7
              exact (h6.trans h7).symm
            have hc2 : (p1 + p2 + n - q) ≡ q [MOD n] :=
              Nat.ModEq.add_right_cancel' q hsum
            have h8 : (p1 + p2 + n - q) % n = q % n := hc2
            rw [Nat.mod_eq_of_lt hq] at h8
            exact h8
          rw [hfix]

/-- C2 counterexample: scenario S4 of the spec — `n = 5`, π = (0,1,2,3,4),
`InvertSubsequence(3, 1).apply` — yields π = (4,3,2,1,0) and not the claimed
(3,1,0,4,2). -/
theorem C2_counterexample :
    (invert_subsequence.applyMove ⟨fun _ => 0, fun _ _ _ => 0⟩ ⟨3, 1⟩
      ⟨[0, 1, 2, 3, 4], 0⟩).pi_m = [4, 3, 2, 1, 0] ∧
    (invert_subsequence.applyMove ⟨fun _ => 0, fun _ _ _ => 0⟩ ⟨3, 1⟩
      ⟨[0, 1, 2, 3, 4], 0⟩).pi_m ≠ [3, 1, 0, 4, 2] := by
  constructor
  · decide
  · decide

/-- C2 witness: the amended theorem applied at the S4 instance. -/
theorem C2_invert_apply_witness :
    (invert_pairs 5 3 1).length = invert_top 5 3 1 / 2 ∧
    ((3 : ℕ) ≠ (1 : ℕ) → ((invert_top 5 3 1 : ℕ) : ℤ) =
      (if (((1 : ℕ) : ℤ) - ((3 : ℕ) : ℤ) + 1) % ((5 : ℕ) : ℤ) = 0
        then ((5 : ℕ) : ℤ)
        else (((1 : ℕ) : ℤ) - ((3 : ℕ) : ℤ) + 1) % ((5 : ℕ) : ℤ))) ∧
    (invert_subsequence.applyMove ⟨fun _ => 0, fun _ _ _ => 0⟩ ⟨3, 1⟩
      ⟨[0, 1, 2, 3, 4], 0⟩).pi_m.length = 5 ∧
    (∀ q, q < 5 →
      (invert_subsequence.applyMove ⟨fun _ => 0, fun _ _ _ => 0⟩ ⟨3, 1⟩
        ⟨[0, 1, 2, 3, 4], 0⟩).pi_m.getD q 0 =
        (if (q + 5 - 3) % 5 < invert_top 5 3 1 then
          ([0, 1, 2, 3, 4] : List ℤ).getD ((3 + 1 + 5 - q) % 5) 0
        else ([0, 1, 2, 3, 4] : List ℤ).getD q 0)) :=
  C2_invert_apply ⟨fun _ => 0, fun _ _ _ => 0⟩ ⟨[0, 1, 2, 3, 4], 0⟩ ⟨3, 1⟩ 5
    (by norm_num) rfl (by norm_num) (by norm_num)

/-- C5 witness: three in-range swaps on `n = 4`. -/
theorem C5_permutation_invariant_witness :
    ((([(0, 2), (1, 1), (3, 0)] : List (ℕ × ℕ)).foldl
      (fun q pr => apply_swap ⟨fun _ => 0, fun _ _ _ => 1⟩ q pr.1 pr.2)
      (permutation_problem.init 4)).pi_m).Perm
      ((List.range 4).map (fun (k : ℕ) => (k : ℤ))) :=
  C5_permutation_invariant ⟨fun _ => 0, fun _ _ _ => 1⟩ 4 [(0, 2), (1, 1), (3, 0)]
    (by decide)

end Mets
